import Mathlib

/-!
Verification of the Bayesian changepoint-detection engine of sdt-python.

The repository ships only the engine's test suite (`tests/test_changepoint.py`);
the module `sdt.changepoint` itself (`bayes_offline.py`, `bayes_online.py`) is
not among the source files.  All definitions below are therefore modelled from
the specification (spec.md sections 3, 4.2 to 4.5 and 8), with the test suite
pinning concrete behaviour where it speaks (notably `get_probabilities`, whose
test fixes the returned slice).  Exact fields (rationals for the executable
online engine, reals for the log-domain offline program and the Student-t
densities) replace IEEE doubles; tolerances of the floating-point tests become
exact equalities.
-/

/-! ### General list helpers -/

theorem getD_map_of_lt {α β : Type} (f : α → β) (d : β) (e : α) :
    ∀ (l : List α) (i : ℕ), i < l.length → (l.map f).getD i d = f (l.getD i e)
  | a :: l, 0, _ => rfl
  | a :: l, i + 1, h => by
      simp only [List.map_cons, List.getD_cons_succ]
      exact getD_map_of_lt f d e l i (Nat.lt_of_succ_lt_succ h)

theorem getD_zipWith_of_lt {α β γ : Type} (f : α → β → γ) (d : γ) (e₁ : α) (e₂ : β) :
    ∀ (l₁ : List α) (l₂ : List β) (i : ℕ), i < l₁.length → i < l₂.length →
      (List.zipWith f l₁ l₂).getD i d = f (l₁.getD i e₁) (l₂.getD i e₂)
  | a :: l₁, b :: l₂, 0, _, _ => rfl
  | a :: l₁, b :: l₂, i + 1, h₁, h₂ => by
      simp only [List.zipWith_cons_cons, List.getD_cons_succ]
      exact getD_zipWith_of_lt f d e₁ e₂ l₁ l₂ i
        (Nat.lt_of_succ_lt_succ h₁) (Nat.lt_of_succ_lt_succ h₂)

theorem sum_map_div {α : Type} [DivisionRing α] (z : α) :
    ∀ l : List α, (l.map (fun y => y / z)).sum = l.sum / z
  | [] => by simp
  | a :: l => by
      simp only [List.map_cons, List.sum_cons, sum_map_div z l]
      rw [add_div]

theorem sum_pos_of_mem_pos {α : Type} [LinearOrderedField α] {l : List α}
    (hall : ∀ z ∈ l, 0 ≤ z) {y : α} (hy : y ∈ l) (hpos : 0 < y) : 0 < l.sum := by
  induction l with
  | nil => cases hy
  | cons a l ih =>
      rw [List.sum_cons]
      rcases List.mem_cons.mp hy with h | h
      · subst h
        have : 0 ≤ l.sum := List.sum_nonneg fun z hz => hall z (List.mem_cons_of_mem _ hz)
        linarith
      · have ha : 0 ≤ a := hall a (List.mem_cons_self a l)
        have := ih (fun z hz => hall z (List.mem_cons_of_mem _ hz)) h
        linarith

theorem zipWith_forall_mem {α β γ : Type} (f : α → β → γ) (Q : γ → Prop) :
    ∀ (l₁ : List α) (l₂ : List β), (∀ a ∈ l₁, ∀ b ∈ l₂, Q (f a b)) →
      ∀ y ∈ List.zipWith f l₁ l₂, Q y
  | [], _, _, y, hy => by cases hy
  | _ :: _, [], _, y, hy => by cases hy
  | a :: l₁, b :: l₂, h, y, hy => by
      rcases List.mem_cons.mp hy with h0 | h0
      · subst h0; exact h a (List.mem_cons_self _ _) b (List.mem_cons_self _ _)
      · exact zipWith_forall_mem f Q l₁ l₂
          (fun x hx z hz => h x (List.mem_cons_of_mem _ hx) z (List.mem_cons_of_mem _ hz))
          y h0

theorem zipWith_mul_sum_nonneg {α : Type} [LinearOrderedField α] (R pis : List α)
    (hR : ∀ y ∈ R, 0 ≤ y) (hq : ∀ q ∈ pis, 0 ≤ q) :
    0 ≤ (List.zipWith (fun r q => r * q) R pis).sum :=
  List.sum_nonneg (zipWith_forall_mem _ _ R pis
    (fun a ha b hb => mul_nonneg (hR a ha) (hq b hb)))

theorem zipWith_mul_sum_pos {α : Type} [LinearOrderedField α] :
    ∀ (R pis : List α), 0 < R.sum → (∀ y ∈ R, 0 ≤ y) → (∀ q ∈ pis, 0 < q) →
      R.length ≤ pis.length → 0 < (List.zipWith (fun r q => r * q) R pis).sum
  | [], _, hsum, _, _, _ => by simp at hsum
  | a :: R, [], _, _, _, hlen => by simp at hlen
  | a :: R, b :: pis, hsum, hR, hq, hlen => by
      simp only [List.zipWith_cons_cons, List.sum_cons]
      have ha : 0 ≤ a := hR a (List.mem_cons_self _ _)
      have hb : 0 < b := hq b (List.mem_cons_self _ _)
      have hRr : ∀ y ∈ R, 0 ≤ y := fun y hy => hR y (List.mem_cons_of_mem _ hy)
      have hqr : ∀ q ∈ pis, 0 < q := fun q hq2 => hq q (List.mem_cons_of_mem _ hq2)
      rcases lt_or_eq_of_le ha with hpos | hzero
      · have : 0 ≤ (List.zipWith (fun r q => r * q) R pis).sum :=
          zipWith_mul_sum_nonneg R pis hRr (fun q hq2 => le_of_lt (hqr q hq2))
        nlinarith
      · have hs : 0 < R.sum := by
          rw [List.sum_cons] at hsum
          rw [← hzero] at hsum
          simpa using hsum
        have := zipWith_mul_sum_pos R pis hs hRr hqr (Nat.le_of_succ_le_succ hlen)
        nlinarith

theorem sum_split_hazard {α : Type} [LinearOrderedField α] :
    ∀ (RV HV : List α), RV.length ≤ HV.length →
      (List.zipWith (fun a h => a * h) RV HV).sum
        + (List.zipWith (fun a h => a * (1 - h)) RV HV).sum = RV.sum
  | [], _, _ => by simp
  | a :: RV, [], hlen => by simp at hlen
  | a :: RV, b :: HV, hlen => by
      simp only [List.zipWith_cons_cons, List.sum_cons]
      have := sum_split_hazard RV HV (Nat.le_of_succ_le_succ hlen)
      ring_nf
      ring_nf at this
      linarith

/-! ### Online predictive distribution (Student-t family), spec section 4.5

Modelled from the spec: `sdt.changepoint.bayes_online.StudentTPython` is not in
the staged sources; the growing parallel arrays `alpha, beta, kappa, mu` and the
conjugate update recursions are taken from spec section 4.5, over an arbitrary
linearly ordered field instead of IEEE doubles. -/

structure TParams (α : Type) where
  alpha0 : α
  beta0 : α
  kappa0 : α
  mu0 : α

structure Theta (α : Type) where
  alpha : List α
  beta : List α
  kappa : List α
  mu : List α

/-- Modelled from the spec: the predictive state right after construction, one
entry per active run length, holding the prior hyperparameters. -/
def initTheta {α : Type} (p : TParams α) : Theta α :=
  ⟨[p.alpha0], [p.beta0], [p.kappa0], [p.mu0]⟩

/-- Modelled from the spec (section 4.5): `update_theta(x)` prepends one new
entry holding the prior hyperparameters (run length 0) and updates every
existing entry by the conjugate recursions. -/
def update_theta {α : Type} [LinearOrderedField α] (p : TParams α) (x : α)
    (th : Theta α) : Theta α where
  alpha := p.alpha0 :: th.alpha.map (fun a => a + 1 / 2)
  beta := p.beta0 :: List.zipWith
    (fun b km => b + km.1 * (x - km.2) ^ 2 / (2 * (km.1 + 1)))
    th.beta (th.kappa.zip th.mu)
  kappa := p.kappa0 :: th.kappa.map (fun k => k + 1)
  mu := p.mu0 :: List.zipWith (fun k m => (k * m + x) / (k + 1)) th.kappa th.mu

/-- Modelled from the spec (section 4.5): `reset()` truncates all arrays back
to length 1 holding the prior values. -/
def reset_theta {α : Type} (th : Theta α) : Theta α :=
  ⟨th.alpha.take 1, th.beta.take 1, th.kappa.take 1, th.mu.take 1⟩

/-! ### Priors of the offline detector, spec section 4.2 -/

/-- Modelled from the spec: the `const` prior, uniform `1/(n+1)` where `n` is
the length of the accumulator array handed to the prior, independent of `t`. -/
def const_prior (t : ℕ) (data : List ℚ) : ℚ :=
  1 / ((data.length : ℚ) + 1)

/-- The binomial coefficient as scipy's floating `comb` computes it: 0 whenever
`n < 0`, `k < 0` or `k > n`. -/
def combNonneg (n k : ℤ) : ℚ :=
  if n < 0 ∨ k < 0 ∨ n < k then 0 else (Nat.choose n.toNat k.toNat : ℚ)

/-- Modelled from the spec (section 4.2): the negative-binomial prior
`C(t-k, k-1) p^k (1-p)^(t-k)`, modelling a minimum dwell time `k`. -/
def neg_binomial_prior (t k : ℕ) (p : ℚ) : ℚ :=
  combNonneg ((t : ℤ) - (k : ℤ)) ((k : ℤ) - 1) * p ^ k * (1 - p) ^ ((t : ℤ) - (k : ℤ))

/-! ### Claims C4, C7, C8 -/

/-- C4: `update_theta(x)` produces one new entry holding the prior
hyperparameters for run length 0 and updates every existing entry by
`mu' = (kappa*mu + x)/(kappa+1)`, `kappa' = kappa+1`, `alpha' = alpha + 0.5`,
`beta' = beta + kappa*(x-mu)^2/(2*(kappa+1))`; in particular, starting from the
prior `(0.1, 0.01, 1, 0)`, one update with any first sample yields
`alpha = [0.1, 0.6]` and `kappa = [1, 2]`. -/
theorem update_theta_conjugate_recursion {α : Type} [LinearOrderedField α]
    (p : TParams α) (x : α) (th : Theta α) (n : ℕ)
    (ha : th.alpha.length = n) (hb : th.beta.length = n)
    (hk : th.kappa.length = n) (hm : th.mu.length = n) :
    ((update_theta p x th).alpha.length = n + 1
      ∧ (update_theta p x th).beta.length = n + 1
      ∧ (update_theta p x th).kappa.length = n + 1
      ∧ (update_theta p x th).mu.length = n + 1)
    ∧ ((update_theta p x th).alpha.getD 0 0 = p.alpha0
      ∧ (update_theta p x th).beta.getD 0 0 = p.beta0
      ∧ (update_theta p x th).kappa.getD 0 0 = p.kappa0
      ∧ (update_theta p x th).mu.getD 0 0 = p.mu0)
    ∧ (∀ i, i < n →
      (update_theta p x th).alpha.getD (i + 1) 0 = th.alpha.getD i 0 + 1 / 2
      ∧ (update_theta p x th).kappa.getD (i + 1) 0 = th.kappa.getD i 0 + 1
      ∧ (update_theta p x th).mu.getD (i + 1) 0
          = (th.kappa.getD i 0 * th.mu.getD i 0 + x) / (th.kappa.getD i 0 + 1)
      ∧ (update_theta p x th).beta.getD (i + 1) 0
          = th.beta.getD i 0
            + th.kappa.getD i 0 * (x - th.mu.getD i 0) ^ 2
              / (2 * (th.kappa.getD i 0 + 1)))
    ∧ (∀ y : α,
      (update_theta (⟨1/10, 1/100, 1, 0⟩ : TParams α) y
          (initTheta ⟨1/10, 1/100, 1, 0⟩)).alpha = [1/10, 3/5]
      ∧ (update_theta (⟨1/10, 1/100, 1, 0⟩ : TParams α) y
          (initTheta ⟨1/10, 1/100, 1, 0⟩)).kappa = [1, 2]) := by
  refine ⟨⟨?_, ?_, ?_, ?_⟩, ⟨rfl, rfl, rfl, rfl⟩, ?_, ?_⟩
  · simp [update_theta, ha]
  · simp [update_theta, hb, hk, hm]
  · simp [update_theta, hk]
  · simp [update_theta, hk, hm]
  · intro i hi
    have hik : i < th.kappa.length := by omega
    have him : i < th.mu.length := by omega
    have hia : i < th.alpha.length := by omega
    have hib : i < th.beta.length := by omega
    have hizip : i < (th.kappa.zip th.mu).length := by
      simpa [List.length_zip] using And.intro hik him
    refine ⟨?_, ?_, ?_, ?_⟩
    · simp only [update_theta, List.getD_cons_succ]
      exact getD_map_of_lt _ 0 0 th.alpha i hia
    · simp only [update_theta, List.getD_cons_succ]
      exact getD_map_of_lt _ 0 0 th.kappa i hik
    · simp only [update_theta, List.getD_cons_succ]
      exact getD_zipWith_of_lt _ 0 0 0 th.kappa th.mu i hik him
    · simp only [update_theta, List.getD_cons_succ]
      have := getD_zipWith_of_lt
        (fun b (km : α × α) => b + km.1 * (x - km.2) ^ 2 / (2 * (km.1 + 1)))
        0 0 (0, 0) th.beta (th.kappa.zip th.mu) i hib hizip
      rw [this]
      have h1 : (th.kappa.zip th.mu).getD i (0, 0)
          = (th.kappa.getD i 0, th.mu.getD i 0) := by
        rw [List.zip]
        exact getD_zipWith_of_lt Prod.mk (0, 0) 0 0 th.kappa th.mu i hik him
      rw [h1]
  · intro y
    constructor
    · simp [update_theta, initTheta]
      norm_num
    · simp [update_theta, initTheta]
      norm_num

/-- C4 witness: the recursion theorem instantiated at the prior
`(0.1, 0.01, 1, 0)` and sample 3. -/
theorem update_theta_conjugate_recursion_witness :
    ((update_theta (⟨1/10, 1/100, 1, 0⟩ : TParams ℚ) 3
        (initTheta ⟨1/10, 1/100, 1, 0⟩)).alpha.length = 1 + 1
      ∧ (update_theta (⟨1/10, 1/100, 1, 0⟩ : TParams ℚ) 3
        (initTheta ⟨1/10, 1/100, 1, 0⟩)).beta.length = 1 + 1
      ∧ (update_theta (⟨1/10, 1/100, 1, 0⟩ : TParams ℚ) 3
        (initTheta ⟨1/10, 1/100, 1, 0⟩)).kappa.length = 1 + 1
      ∧ (update_theta (⟨1/10, 1/100, 1, 0⟩ : TParams ℚ) 3
        (initTheta ⟨1/10, 1/100, 1, 0⟩)).mu.length = 1 + 1)
    ∧ ((update_theta (⟨1/10, 1/100, 1, 0⟩ : TParams ℚ) 3
        (initTheta ⟨1/10, 1/100, 1, 0⟩)).alpha.getD 0 0 = (1 : ℚ)/10
      ∧ (update_theta (⟨1/10, 1/100, 1, 0⟩ : TParams ℚ) 3
        (initTheta ⟨1/10, 1/100, 1, 0⟩)).beta.getD 0 0 = (1 : ℚ)/100
      ∧ (update_theta (⟨1/10, 1/100, 1, 0⟩ : TParams ℚ) 3
        (initTheta ⟨1/10, 1/100, 1, 0⟩)).kappa.getD 0 0 = (1 : ℚ)
      ∧ (update_theta (⟨1/10, 1/100, 1, 0⟩ : TParams ℚ) 3
        (initTheta ⟨1/10, 1/100, 1, 0⟩)).mu.getD 0 0 = (0 : ℚ))
    ∧ (∀ i, i < 1 →
      (update_theta (⟨1/10, 1/100, 1, 0⟩ : TParams ℚ) 3
        (initTheta ⟨1/10, 1/100, 1, 0⟩)).alpha.getD (i + 1) 0
          = (initTheta (⟨1/10, 1/100, 1, 0⟩ : TParams ℚ)).alpha.getD i 0 + 1 / 2
      ∧ (update_theta (⟨1/10, 1/100, 1, 0⟩ : TParams ℚ) 3
        (initTheta ⟨1/10, 1/100, 1, 0⟩)).kappa.getD (i + 1) 0
          = (initTheta (⟨1/10, 1/100, 1, 0⟩ : TParams ℚ)).kappa.getD i 0 + 1
      ∧ (update_theta (⟨1/10, 1/100, 1, 0⟩ : TParams ℚ) 3
        (initTheta ⟨1/10, 1/100, 1, 0⟩)).mu.getD (i + 1) 0
          = ((initTheta (⟨1/10, 1/100, 1, 0⟩ : TParams ℚ)).kappa.getD i 0
              * (initTheta (⟨1/10, 1/100, 1, 0⟩ : TParams ℚ)).mu.getD i 0 + 3)
            / ((initTheta (⟨1/10, 1/100, 1, 0⟩ : TParams ℚ)).kappa.getD i 0 + 1)
      ∧ (update_theta (⟨1/10, 1/100, 1, 0⟩ : TParams ℚ) 3
        (initTheta ⟨1/10, 1/100, 1, 0⟩)).beta.getD (i + 1) 0
          = (initTheta (⟨1/10, 1/100, 1, 0⟩ : TParams ℚ)).beta.getD i 0
            + (initTheta (⟨1/10, 1/100, 1, 0⟩ : TParams ℚ)).kappa.getD i 0
              * (3 - (initTheta (⟨1/10, 1/100, 1, 0⟩ : TParams ℚ)).mu.getD i 0) ^ 2
              / (2 * ((initTheta (⟨1/10, 1/100, 1, 0⟩ : TParams ℚ)).kappa.getD i 0 + 1)))
    ∧ (∀ y : ℚ,
      (update_theta (⟨1/10, 1/100, 1, 0⟩ : TParams ℚ) y
          (initTheta ⟨1/10, 1/100, 1, 0⟩)).alpha = [1/10, 3/5]
      ∧ (update_theta (⟨1/10, 1/100, 1, 0⟩ : TParams ℚ) y
          (initTheta ⟨1/10, 1/100, 1, 0⟩)).kappa = [1, 2]) :=
  update_theta_conjugate_recursion (⟨1/10, 1/100, 1, 0⟩ : TParams ℚ) 3
    (initTheta ⟨1/10, 1/100, 1, 0⟩) 1 rfl rfl rfl rfl

/-- C7: for every negative-binomial parameter pair `(k, p)` and every `t < k`,
the negative-binomial prior returns probability 0: it is a total function, and
at the domain boundary the value is exactly 0. -/
theorem neg_binomial_prior_zero_below_dwell (t k : ℕ) (p : ℚ) (h : t < k) :
    neg_binomial_prior t k p = 0 := by
  have hneg : (t : ℤ) - (k : ℤ) < 0 := by
    have : (t : ℤ) < (k : ℤ) := by exact_mod_cast h
    omega
  unfold neg_binomial_prior combNonneg
  rw [if_pos (Or.inl hneg)]
  ring

/-- C7 witness: `neg_binomial_prior(4, [100, 0.1]) = 0`, matching the test
scenario `t = 4`, `k = 100`, `p = 0.1`. -/
theorem neg_binomial_prior_zero_below_dwell_witness :
    4 < 100 ∧ neg_binomial_prior 4 100 (1/10) = 0 :=
  ⟨by norm_num, neg_binomial_prior_zero_below_dwell 4 100 (1/10) (by norm_num)⟩

/-- C8: the `const` prior returns the uniform probability `1/(n+1)` independent
of `t` (where `n` is the accumulator length); it normalizes against `n+1`, and
with a 99-element accumulator it returns `0.01`. -/
theorem const_prior_uniform :
    (∀ t u : ℕ, ∀ data : List ℚ, const_prior t data = const_prior u data)
    ∧ (∀ t : ℕ, ∀ data : List ℚ, const_prior t data * ((data.length : ℚ) + 1) = 1)
    ∧ (∀ t : ℕ, ∀ data : List ℚ, data.length = 99 → const_prior t data = 1/100) := by
  refine ⟨fun t u data => rfl, fun t data => ?_, fun t data h => ?_⟩
  · have hne : ((data.length : ℚ) + 1) ≠ 0 := by positivity
    rw [const_prior, one_div, inv_mul_cancel₀ hne]
  · rw [const_prior, h]
    norm_num

/-- C8 witness: the `const` prior at `t = 4` on a 99-element accumulator. -/
theorem const_prior_uniform_witness :
    const_prior 4 (List.replicate 99 (0 : ℚ)) = 1/100 :=
  const_prior_uniform.2.2 4 (List.replicate 99 (0 : ℚ)) (by simp)

/-! ### Online detector, spec section 4.4

Modelled from the spec: `sdt.changepoint.bayes_online.BayesOnlinePython` is not
in the staged sources.  The detector is generic over the predictive density
(`pdfF`, evaluated on each active conjugate-parameter entry) and the hazard
function (`hazF`, evaluated on each run-length index), exactly the pluggable
design of spec sections 2 and 4.4.  `get_probabilities` follows the behaviour
pinned by the repository's test (`tests/test_changepoint.py`,
`test_get_probabilities`): it asserts `get_probabilities(10)` equals
`R[10, 10:-1]` of the stored triangular history, i.e. the probability that the
run length equals `past` at each processed time from `past` on, excluding the
last stored vector. -/

structure OnlineFinder (α : Type) where
  probabilities : List (List α)
  theta : Theta α

/-- One conjugate-parameter entry per active run length, zipped from the four
parallel arrays. -/
def thetaEntries {α : Type} (th : Theta α) : List (α × α × α × α) :=
  th.alpha.zip (th.beta.zip (th.kappa.zip th.mu))

/-- Modelled from the spec: a freshly constructed online detector, run-length
vector `[1.0]` and predictive state at the priors. -/
def onlineInit {α : Type} [LinearOrderedField α] (p : TParams α) : OnlineFinder α :=
  ⟨[[1]], initTheta p⟩

/-- Modelled from the spec (section 4.4, steps 1 to 5): the new normalized
run-length vector computed by one `update(x)` from the latest vector `R` —
per-run predictive densities, hazard per run-length index, growth term
`R[r]*pi[r]*(1-H(r))`, changepoint term `sum R[r]*pi[r]*H(r)`, then
normalization to sum 1. -/
def stepVec {α : Type} [LinearOrderedField α] (pdfF : α → α × α × α × α → α)
    (hazF : ℕ → α) (x : α) (th : Theta α) (R : List α) : List α :=
  let pis := (thetaEntries th).map (pdfF x)
  let RV := List.zipWith (fun r q => r * q) R pis
  let HV := (List.range R.length).map hazF
  let growth := List.zipWith (fun a h => a * (1 - h)) RV HV
  let cp := (List.zipWith (fun a h => a * h) RV HV).sum
  let newP := cp :: growth
  newP.map (fun y => y / newP.sum)

/-- Modelled from the spec (section 4.4): one `update(x)` transition — the new
normalized run-length vector is appended to the stored history and the
conjugate parameters are updated. -/
def online_update {α : Type} [LinearOrderedField α] (pdfF : α → α × α × α × α → α)
    (hazF : ℕ → α) (p : TParams α) (x : α) (st : OnlineFinder α) : OnlineFinder α :=
  ⟨st.probabilities
      ++ [stepVec pdfF hazF x st.theta
            (st.probabilities.getD (st.probabilities.length - 1) [])],
   update_theta p x st.theta⟩

/-- Modelled from the spec: `find_changepoints` calls `update` for every
sample. -/
def online_find {α : Type} [LinearOrderedField α] (pdfF : α → α × α × α × α → α)
    (hazF : ℕ → α) (p : TParams α) (data : List α) (st : OnlineFinder α) :
    OnlineFinder α :=
  data.foldl (fun s x => online_update pdfF hazF p x s) st

/-- Modelled from the spec (section 4.4): `reset()` restores the stored
probability history to `[[1.0]]` and truncates the predictive state. -/
def online_reset {α : Type} [LinearOrderedField α] (st : OnlineFinder α) :
    OnlineFinder α :=
  ⟨[[1]], reset_theta st.theta⟩

/-- Modelled from the test (`tests/test_changepoint.py:316`):
`get_probabilities(past)` returns, for each stored probability vector from
index `past` up to but excluding the last, its entry at run length `past`. -/
def get_probabilities {α : Type} [LinearOrderedField α] (st : OnlineFinder α)
    (past : ℕ) : List α :=
  ((st.probabilities.drop past).dropLast).map (fun q => q.getD past 0)

/-! ### Claim C5: reset restores a freshly constructed detector -/

theorem reset_theta_update {α : Type} [LinearOrderedField α] (p : TParams α)
    (x : α) (th : Theta α) : reset_theta (update_theta p x th) = initTheta p := by
  simp [reset_theta, update_theta, initTheta]

theorem reset_theta_init {α : Type} (p : TParams α) :
    reset_theta (initTheta p) = initTheta p := by
  simp [reset_theta, initTheta]

theorem online_reset_find {α : Type} [LinearOrderedField α]
    (pdfF : α → α × α × α × α → α) (hazF : ℕ → α) (p : TParams α) :
    ∀ (xs : List α) (st : OnlineFinder α), reset_theta st.theta = initTheta p →
      online_reset (online_find pdfF hazF p xs st) = onlineInit p
  | [], st, h => by
      simp only [online_find, List.foldl_nil, online_reset, onlineInit, h]
  | x :: xs, st, h => by
      have hstep : reset_theta (online_update pdfF hazF p x st).theta = initTheta p :=
        reset_theta_update p x st.theta
      simpa [online_find, List.foldl_cons] using
        online_reset_find pdfF hazF p xs (online_update pdfF hazF p x st) hstep

/-- C5: for every online detector and every input sequence, `reset()` after any
number of updates restores exactly the freshly constructed state — history
`[[1.0]]` and predictive arrays truncated to the priors — and every subsequent
`update` sequence then produces the same states as on a fresh instance. -/
theorem online_reset_restores_fresh {α : Type} [LinearOrderedField α]
    (pdfF : α → α × α × α × α → α) (hazF : ℕ → α) (p : TParams α) (xs : List α) :
    online_reset (online_find pdfF hazF p xs (onlineInit p)) = onlineInit p
    ∧ ∀ ys : List α,
        online_find pdfF hazF p ys
            (online_reset (online_find pdfF hazF p xs (onlineInit p)))
          = online_find pdfF hazF p ys (onlineInit p) := by
  have h : online_reset (online_find pdfF hazF p xs (onlineInit p)) = onlineInit p :=
    online_reset_find pdfF hazF p xs (onlineInit p) (reset_theta_init p)
  exact ⟨h, fun ys => by rw [h]⟩

/-! ### Claim C1: run-length posterior invariants and `get_probabilities` -/

/-- A stored probability vector for processed index `i`: length `i + 1`,
normalized, nonnegative. -/
def goodVec {α : Type} [LinearOrderedField α] (l : List α) (i : ℕ) : Prop :=
  l.length = i + 1 ∧ l.sum = 1 ∧ ∀ y ∈ l, 0 ≤ y

/-- Detector-state invariant after `k` processed samples. -/
def goodState {α : Type} [LinearOrderedField α] (st : OnlineFinder α) (k : ℕ) : Prop :=
  st.probabilities.length = k + 1
  ∧ (∀ i, i ≤ k → goodVec (st.probabilities.getD i []) i)
  ∧ st.theta.alpha.length = k + 1 ∧ st.theta.beta.length = k + 1
  ∧ st.theta.kappa.length = k + 1 ∧ st.theta.mu.length = k + 1

theorem stepVec_good {α : Type} [LinearOrderedField α]
    (pdfF : α → α × α × α × α → α) (hazF : ℕ → α)
    (hp : ∀ x e, 0 < pdfF x e) (hh : ∀ r, 0 < hazF r ∧ hazF r < 1)
    (x : α) (th : Theta α) (R : List α) (m : ℕ)
    (hE : (thetaEntries th).length = R.length)
    (hRv : goodVec R m) : goodVec (stepVec pdfF hazF x th R) (m + 1) := by
  obtain ⟨hRlen, hRsum, hRnn⟩ := hRv
  unfold stepVec
  have hpis : ∀ q ∈ (thetaEntries th).map (pdfF x), 0 < q := by
    intro q hq
    rcases List.mem_map.mp hq with ⟨e, _, rfl⟩
    exact hp x e
  have hpislen : ((thetaEntries th).map (pdfF x)).length = R.length := by
    rw [List.length_map, hE]
  have hRVlen : (List.zipWith (fun r q => r * q) R
      ((thetaEntries th).map (pdfF x))).length = R.length := by
    rw [List.length_zipWith, hpislen, min_self]
  have hHVlen : ((List.range R.length).map hazF).length = R.length := by
    rw [List.length_map, List.length_range]
  have hRVnn : ∀ y ∈ List.zipWith (fun r q => r * q) R
      ((thetaEntries th).map (pdfF x)), 0 ≤ y :=
    zipWith_forall_mem _ _ _ _
      (fun a ha b hb => mul_nonneg (hRnn a ha) (le_of_lt (hpis b hb)))
  have hHV : ∀ h ∈ (List.range R.length).map hazF, 0 < h ∧ h < 1 := by
    intro h hmem
    rcases List.mem_map.mp hmem with ⟨r, _, rfl⟩
    exact hh r
  have hZsplit := sum_split_hazard
    (List.zipWith (fun r q => r * q) R ((thetaEntries th).map (pdfF x)))
    ((List.range R.length).map hazF) (by rw [hRVlen, hHVlen])
  have hRVpos : 0 < (List.zipWith (fun r q => r * q) R
      ((thetaEntries th).map (pdfF x))).sum :=
    zipWith_mul_sum_pos R _ (by rw [hRsum]; norm_num) hRnn hpis (by rw [hpislen])
  have hZ : (((List.zipWith (fun a h => a * h)
        (List.zipWith (fun r q => r * q) R ((thetaEntries th).map (pdfF x)))
        ((List.range R.length).map hazF)).sum
      :: List.zipWith (fun a h => a * (1 - h))
        (List.zipWith (fun r q => r * q) R ((thetaEntries th).map (pdfF x)))
        ((List.range R.length).map hazF)).sum)
      = (List.zipWith (fun r q => r * q) R ((thetaEntries th).map (pdfF x))).sum := by
    rw [List.sum_cons]
    exact hZsplit
  refine ⟨?_, ?_, ?_⟩
  · rw [List.length_map, List.length_cons, List.length_zipWith, hRVlen, hHVlen,
      min_self, hRlen]
  · rw [sum_map_div, hZ, div_self (ne_of_gt hRVpos)]
  · intro y hy
    rcases List.mem_map.mp hy with ⟨w, hw, rfl⟩
    have hwnn : 0 ≤ w := by
      rcases List.mem_cons.mp hw with h0 | h0
      · subst h0
        exact List.sum_nonneg (zipWith_forall_mem _ _ _ _
          (fun a ha b hb => mul_nonneg (hRVnn a ha) (le_of_lt (hHV b hb).1)))
      · exact zipWith_forall_mem _ (fun z => 0 ≤ z) _ _
          (fun a ha b hb => mul_nonneg (hRVnn a ha) (by linarith [(hHV b hb).2]))
          w h0
    have hZnn : 0 ≤ (((List.zipWith (fun a h => a * h)
          (List.zipWith (fun r q => r * q) R ((thetaEntries th).map (pdfF x)))
          ((List.range R.length).map hazF)).sum
        :: List.zipWith (fun a h => a * (1 - h))
          (List.zipWith (fun r q => r * q) R ((thetaEntries th).map (pdfF x)))
          ((List.range R.length).map hazF)).sum) := by
      rw [hZ]; exact le_of_lt hRVpos
    exact div_nonneg hwnn hZnn

theorem online_update_good {α : Type} [LinearOrderedField α]
    (pdfF : α → α × α × α × α → α) (hazF : ℕ → α) (p : TParams α)
    (hp : ∀ x e, 0 < pdfF x e) (hh : ∀ r, 0 < hazF r ∧ hazF r < 1)
    (x : α) (st : OnlineFinder α) (k : ℕ) (hg : goodState st k) :
    goodState (online_update pdfF hazF p x st) (k + 1) := by
  obtain ⟨hlen, hhist, ha, hb, hkk, hmm⟩ := hg
  have hidx : st.probabilities.length - 1 = k := by omega
  have hRv : goodVec (st.probabilities.getD k []) k := hhist k le_rfl
  have hE : (thetaEntries st.theta).length
      = (st.probabilities.getD k []).length := by
    rw [thetaEntries, List.length_zip, List.length_zip, List.length_zip,
      ha, hb, hkk, hmm, hRv.1]
    simp
  have hnew : goodVec (stepVec pdfF hazF x st.theta (st.probabilities.getD k []))
      (k + 1) := stepVec_good pdfF hazF hp hh x st.theta _ k hE hRv
  refine ⟨?_, ?_, ?_, ?_, ?_, ?_⟩
  · simp [online_update, hlen]
  · intro i hi
    simp only [online_update, hidx]
    rcases Nat.lt_or_ge i (k + 1) with hik | hik
    · rw [List.getD_append _ _ _ _ (by omega)]
      exact hhist i (by omega)
    · have hieq : i = k + 1 := by omega
      subst hieq
      rw [List.getD_append_right _ _ _ _ (by omega), hlen]
      simpa using hnew
  · simp [online_update, update_theta, ha]
  · simp [online_update, update_theta, List.length_zipWith, List.length_zip,
      hb, hkk, hmm]
  · simp [online_update, update_theta, hkk]
  · simp [online_update, update_theta, List.length_zipWith, hkk, hmm]

theorem online_find_good {α : Type} [LinearOrderedField α]
    (pdfF : α → α × α × α × α → α) (hazF : ℕ → α) (p : TParams α)
    (hp : ∀ x e, 0 < pdfF x e) (hh : ∀ r, 0 < hazF r ∧ hazF r < 1) :
    ∀ (data : List α) (st : OnlineFinder α) (k : ℕ), goodState st k →
      goodState (online_find pdfF hazF p data st) (k + data.length)
  | [], st, k, hg => by simpa [online_find] using hg
  | x :: xs, st, k, hg => by
      have hstep := online_update_good pdfF hazF p hp hh x st k hg
      have := online_find_good pdfF hazF p hp hh xs
        (online_update pdfF hazF p x st) (k + 1) hstep
      simp only [online_find, List.foldl_cons] at this ⊢
      have harith : k + 1 + xs.length = k + (xs.length + 1) := by omega
      rw [harith] at this
      simpa using this

theorem onlineInit_good {α : Type} [LinearOrderedField α] (p : TParams α) :
    goodState (onlineInit p) 0 := by
  refine ⟨rfl, ?_, rfl, rfl, rfl, rfl⟩
  intro i hi
  interval_cases i
  exact ⟨rfl, by simp [onlineInit], by intro y hy; simp [onlineInit] at hy; simp [hy]⟩

/-- C1 (amended): after `n` calls to `update`, `get_probabilities(k)` returns
the vector of probabilities that the run length equals `k` at each processed
time `k, ..., n-1` — one entry per stored vector from index `k` up to but
excluding the last, so its length is `n - k`; the run-length distribution that
existed immediately after the `k`-th update is instead the stored history entry
at index `k`, a vector of length `k + 1` whose entries sum to 1 exactly. -/
theorem get_probabilities_time_slice {α : Type} [LinearOrderedField α]
    (pdfF : α → α × α × α × α → α) (hazF : ℕ → α) (p : TParams α)
    (hp : ∀ x e, 0 < pdfF x e) (hh : ∀ r, 0 < hazF r ∧ hazF r < 1)
    (data : List α) (k : ℕ) (hk : k ≤ data.length) :
    (get_probabilities (online_find pdfF hazF p data (onlineInit p)) k).length
        = data.length - k
    ∧ ((online_find pdfF hazF p data (onlineInit p)).probabilities.getD k []).length
        = k + 1
    ∧ ((online_find pdfF hazF p data (onlineInit p)).probabilities.getD k []).sum
        = 1 := by
  have hg := online_find_good pdfF hazF p hp hh data (onlineInit p) 0
    (onlineInit_good p)
  rw [Nat.zero_add] at hg
  obtain ⟨hlen, hhist, -⟩ := hg
  have hvec := hhist k hk
  refine ⟨?_, hvec.1, hvec.2.1⟩
  rw [get_probabilities, List.length_map, List.length_dropLast, List.length_drop,
    hlen]
  omega

/-- C1 witness: the amended statement at a concrete two-sample run with unit
densities and hazard 1/250, queried at `k = 1`. -/
theorem get_probabilities_time_slice_witness :
    (get_probabilities (online_find (fun (_ : ℚ) (_ : ℚ × ℚ × ℚ × ℚ) => 1)
        (fun _ => 1/250) (⟨1/10, 1/100, 1, 0⟩ : TParams ℚ) [5, 7]
        (onlineInit ⟨1/10, 1/100, 1, 0⟩)) 1).length = [(5 : ℚ), 7].length - 1
    ∧ ((online_find (fun (_ : ℚ) (_ : ℚ × ℚ × ℚ × ℚ) => 1) (fun _ => 1/250)
        (⟨1/10, 1/100, 1, 0⟩ : TParams ℚ) [5, 7]
        (onlineInit ⟨1/10, 1/100, 1, 0⟩)).probabilities.getD 1 []).length = 1 + 1
    ∧ ((online_find (fun (_ : ℚ) (_ : ℚ × ℚ × ℚ × ℚ) => 1) (fun _ => 1/250)
        (⟨1/10, 1/100, 1, 0⟩ : TParams ℚ) [5, 7]
        (onlineInit ⟨1/10, 1/100, 1, 0⟩)).probabilities.getD 1 []).sum = 1 :=
  get_probabilities_time_slice (fun _ _ => 1) (fun _ => 1/250)
    (⟨1/10, 1/100, 1, 0⟩ : TParams ℚ)
    (fun _ _ => one_pos) (fun _ => by norm_num) [5, 7] 1 (by norm_num)

/-- C1 counterexample: after exactly `k = 2` calls to `update`,
`get_probabilities(2)` is the empty list — not the length-3 run-length vector
of the second update, and not summing to 1 — refuting the claim as stated. -/
theorem get_probabilities_not_run_length_vector :
    ¬ ((get_probabilities (online_find (fun (_ : ℚ) (_ : ℚ × ℚ × ℚ × ℚ) => 1)
          (fun _ => 1/250) (⟨1/10, 1/100, 1, 0⟩ : TParams ℚ) [5, 7]
          (onlineInit ⟨1/10, 1/100, 1, 0⟩)) 2).length = 2 + 1
        ∧ (get_probabilities (online_find (fun (_ : ℚ) (_ : ℚ × ℚ × ℚ × ℚ) => 1)
          (fun _ => 1/250) (⟨1/10, 1/100, 1, 0⟩ : TParams ℚ) [5, 7]
          (onlineInit ⟨1/10, 1/100, 1, 0⟩)) 2).sum = 1) := by
  intro hcontra
  have hlen : (online_find (fun (_ : ℚ) (_ : ℚ × ℚ × ℚ × ℚ) => 1)
      (fun _ => 1/250) (⟨1/10, 1/100, 1, 0⟩ : TParams ℚ) [5, 7]
      (onlineInit ⟨1/10, 1/100, 1, 0⟩)).probabilities.length = 3 := by
    have hg := online_find_good (fun (_ : ℚ) (_ : ℚ × ℚ × ℚ × ℚ) => 1)
      (fun _ => 1/250) (⟨1/10, 1/100, 1, 0⟩ : TParams ℚ)
      (fun _ _ => one_pos) (fun _ => by norm_num) [5, 7]
      (onlineInit ⟨1/10, 1/100, 1, 0⟩) 0 (onlineInit_good _)
    exact hg.1
  have h0 : (get_probabilities (online_find (fun (_ : ℚ) (_ : ℚ × ℚ × ℚ × ℚ) => 1)
      (fun _ => 1/250) (⟨1/10, 1/100, 1, 0⟩ : TParams ℚ) [5, 7]
      (onlineInit ⟨1/10, 1/100, 1, 0⟩)) 2).length = 0 := by
    rw [get_probabilities, List.length_map, List.length_dropLast, List.length_drop,
      hlen]
  rw [h0] at hcontra
  exact absurd hcontra.1 (by norm_num)

/-! ### Offline detector, spec section 4.3

Modelled from the spec: `sdt.changepoint.bayes_offline` is not in the staged
sources.  The Fearnhead-style dynamic program is modelled in the log domain
over exact reals, generic in the observation-likelihood and prior plug-ins
(spec sections 4.1 and 4.2).  `Q[n] = 0`, and for `t < n`,
`Q[t] = logsumexp over s in t+1..n of (P[t,s] + Q[s])` with `P[t,s]` the
prior-weighted segment log-likelihood; truncation skips the terms contributing
less than `exp(truncate)` relative to the running max, with `truncate = none`
standing for the disabling value `-inf`. -/

noncomputable def lse (xs : List ℝ) : ℝ :=
  Real.log ((xs.map Real.exp).sum)

noncomputable def truncKeepGo (c : ℝ) : ℝ → List ℝ → List ℝ
  | _, [] => []
  | m, x :: xs =>
      if x - max m x < c then truncKeepGo c (max m x) xs
      else x :: truncKeepGo c (max m x) xs

/-- The terms kept by truncation: a term is skipped when it contributes less
than `exp(c)` relative to the running max (the first term is the running max
at its own step, hence always kept). -/
noncomputable def truncKeep (c : ℝ) : List ℝ → List ℝ
  | [] => []
  | x :: xs => x :: truncKeepGo c x xs

/-- Log-sum-exp with truncation; `none` models `truncate = -inf`, i.e. the
skip condition `x - max < -inf` never fires. -/
noncomputable def truncLse : Option ℝ → List ℝ → ℝ
  | none, xs => lse xs
  | some c, xs => lse (truncKeep c xs)

/-- The running-max differences the skip condition tests, for a given term
list. -/
noncomputable def truncDiffsGo : ℝ → List ℝ → List ℝ
  | _, [] => []
  | m, x :: xs => (x - max m x) :: truncDiffsGo (max m x) xs

noncomputable def truncDiffs : List ℝ → List ℝ
  | [] => []
  | x :: xs => truncDiffsGo x xs

/-- Modelled from the spec (section 4.3 step 1): prior-weighted log-likelihood
of the candidate segment `[t, s)`. -/
noncomputable def offP (lik : List ℝ → ℕ → ℕ → ℝ) (prior : ℕ → ℝ)
    (data : List ℝ) (t s : ℕ) : ℝ :=
  lik data t s + Real.log (prior (s - t))

/-- The term list of the recursion for `Q[t]` with `t = n - (k+1)`: one term
per candidate segment end `s = t+1, ..., n`, each `P[t,s] + Q[s]`, reading
`Q[t+1..n]` off the already computed list `prev`. -/
noncomputable def offStepTerms (lik : List ℝ → ℕ → ℕ → ℝ) (prior : ℕ → ℝ)
    (data : List ℝ) (prev : List ℝ) (k : ℕ) : List ℝ :=
  (List.range (k + 1)).map
    (fun j => offP lik prior data (data.length - (k + 1))
        (data.length - (k + 1) + 1 + j) + prev.getD j 0)

/-- Modelled from the spec (section 4.3 steps 2 and 3): the accumulated
log-likelihoods `[Q[n-k], ..., Q[n]]`, built from the base case `Q[n] = 0` by
the truncated log-sum-exp recursion. -/
noncomputable def offQ (lik : List ℝ → ℕ → ℕ → ℝ) (prior : ℕ → ℝ)
    (data : List ℝ) (tr : Option ℝ) : ℕ → List ℝ
  | 0 => [0]
  | k + 1 =>
      truncLse tr (offStepTerms lik prior data (offQ lik prior data tr k) k)
        :: offQ lik prior data tr k

/-- The untruncated dynamic program, written with the plain log-sum-exp: the
reference the truncated variant is compared against. -/
noncomputable def offQplain (lik : List ℝ → ℕ → ℕ → ℝ) (prior : ℕ → ℝ)
    (data : List ℝ) : ℕ → List ℝ
  | 0 => [0]
  | k + 1 =>
      lse (offStepTerms lik prior data (offQplain lik prior data k) k)
        :: offQplain lik prior data k

/-- Modelled from the spec (section 4.3 step 4): the posterior changepoint
probability vector, entry `t - 1` being `exp(P[0,t] + Q[t] - Q[0])` for
`t = 1, ..., n-1`. -/
noncomputable def offPcp (lik : List ℝ → ℕ → ℕ → ℝ) (prior : ℕ → ℝ)
    (data : List ℝ) (tr : Option ℝ) : List ℝ :=
  (List.range (data.length - 1)).map
    (fun i => Real.exp (offP lik prior data 0 (i + 1)
        + (offQ lik prior data tr data.length).getD (i + 1) 0
        - (offQ lik prior data tr data.length).getD 0 0))

noncomputable def offPcpPlain (lik : List ℝ → ℕ → ℕ → ℝ) (prior : ℕ → ℝ)
    (data : List ℝ) : List ℝ :=
  (List.range (data.length - 1)).map
    (fun i => Real.exp (offP lik prior data 0 (i + 1)
        + (offQplain lik prior data data.length).getD (i + 1) 0
        - (offQplain lik prior data data.length).getD 0 0))

/-- Modelled from the spec (section 4.3): the offline detector's full output —
overall log-likelihood `Q[0]`, the `Q` vector and the `Pcp` vector. -/
noncomputable def find_changepoints (lik : List ℝ → ℕ → ℕ → ℝ) (prior : ℕ → ℝ)
    (data : List ℝ) (tr : Option ℝ) : ℝ × List ℝ × List ℝ :=
  ((offQ lik prior data tr data.length).getD 0 0,
   offQ lik prior data tr data.length,
   offPcp lik prior data tr)

noncomputable def find_changepoints_plain (lik : List ℝ → ℕ → ℕ → ℝ)
    (prior : ℕ → ℝ) (data : List ℝ) : ℝ × List ℝ × List ℝ :=
  ((offQplain lik prior data data.length).getD 0 0,
   offQplain lik prior data data.length,
   offPcpPlain lik prior data)

/-! ### Claim C9: the offline Pcp vector -/

theorem exp_sub_lse_le_one {xs : List ℝ} {x : ℝ} (hx : x ∈ xs) :
    Real.exp (x - lse xs) ≤ 1 := by
  have hmem : Real.exp x ∈ xs.map Real.exp := List.mem_map.mpr ⟨x, hx, rfl⟩
  have hnn : ∀ z ∈ xs.map Real.exp, 0 ≤ z := by
    intro z hz
    rcases List.mem_map.mp hz with ⟨w, _, rfl⟩
    exact le_of_lt (Real.exp_pos w)
  have hle : Real.exp x ≤ (xs.map Real.exp).sum :=
    List.single_le_sum hnn _ hmem
  have hpos : 0 < (xs.map Real.exp).sum :=
    sum_pos_of_mem_pos hnn hmem (Real.exp_pos x)
  rw [Real.exp_sub, lse, Real.exp_log hpos]
  exact (div_le_one hpos).mpr hle

/-- C9: for every series (and any likelihood and prior plug-ins), the offline
detector's `Pcp` vector has length `n - 1` and every entry lies in `[0, 1]`. -/
theorem offline_Pcp_length_and_range (lik : List ℝ → ℕ → ℕ → ℝ)
    (prior : ℕ → ℝ) (data : List ℝ) :
    (offPcp lik prior data none).length = data.length - 1
    ∧ ∀ y ∈ offPcp lik prior data none, 0 ≤ y ∧ y ≤ 1 := by
  constructor
  · rw [offPcp, List.length_map, List.length_range]
  · intro y hy
    rcases List.mem_map.mp hy with ⟨i, hirange, rfl⟩
    have hi : i < data.length - 1 := List.mem_range.mp hirange
    refine ⟨le_of_lt (Real.exp_pos _), ?_⟩
    obtain ⟨m, hm⟩ : ∃ m, data.length = m + 1 := ⟨data.length - 1, by omega⟩
    have him : i < m := by omega
    rw [hm]
    show Real.exp (offP lik prior data 0 (i + 1)
        + (offQ lik prior data none (m + 1)).getD (i + 1) 0
        - (offQ lik prior data none (m + 1)).getD 0 0) ≤ 1
    rw [offQ]
    rw [List.getD_cons_succ, List.getD_cons_zero]
    have hterm : offP lik prior data 0 (i + 1)
          + (offQ lik prior data none m).getD i 0
        ∈ offStepTerms lik prior data (offQ lik prior data none m) m := by
      rw [offStepTerms]
      refine List.mem_map.mpr ⟨i, List.mem_range.mpr (by omega), ?_⟩
      have h2 : data.length - (m + 1) + 1 + i = i + 1 := by omega
      have h1 : data.length - (m + 1) = 0 := by omega
      rw [h2, h1]
    have := exp_sub_lse_le_one hterm
    simpa [truncLse] using this

/-- C9 witness: the length and range facts at a concrete three-sample series
with trivial plug-ins. -/
theorem offline_Pcp_length_and_range_witness :
    (offPcp (fun _ _ _ => 0) (fun _ => 1) [1, 2, 3] none).length
        = [(1 : ℝ), 2, 3].length - 1
    ∧ ∀ y ∈ offPcp (fun _ _ _ => 0) (fun _ => 1) [1, 2, 3] none,
        0 ≤ y ∧ y ≤ 1 :=
  offline_Pcp_length_and_range (fun _ _ _ => 0) (fun _ => 1) [1, 2, 3]

/-! ### Claim C3: truncation is exact for `-inf` and for sufficiently negative
finite thresholds -/

theorem offQ_none_eq_plain (lik : List ℝ → ℕ → ℕ → ℝ) (prior : ℕ → ℝ)
    (data : List ℝ) : ∀ k, offQ lik prior data none k = offQplain lik prior data k
  | 0 => rfl
  | k + 1 => by
      rw [offQ, offQplain, offQ_none_eq_plain lik prior data k]
      rfl

theorem foldr_min_le_of_mem {l : List ℝ} {x : ℝ} (b : ℝ) (hx : x ∈ l) :
    l.foldr min b ≤ x := by
  induction l with
  | nil => cases hx
  | cons a l ih =>
      rcases List.mem_cons.mp hx with h | h
      · subst h; exact min_le_left _ _
      · exact le_trans (min_le_right _ _) (ih h)

theorem truncKeepGo_of_le {c : ℝ} :
    ∀ (xs : List ℝ) (m : ℝ), (∀ d ∈ truncDiffsGo m xs, c ≤ d) →
      truncKeepGo c m xs = xs
  | [], _, _ => rfl
  | x :: xs, m, h => by
      have hhead : c ≤ x - max m x := h _ (by rw [truncDiffsGo]; exact List.mem_cons_self _ _)
      rw [truncKeepGo, if_neg (not_lt.mpr hhead)]
      rw [truncKeepGo_of_le xs (max m x)
        (fun d hd => h d (by rw [truncDiffsGo]; exact List.mem_cons_of_mem _ hd))]

theorem truncLse_some_of_le {c : ℝ} {xs : List ℝ}
    (h : ∀ d ∈ truncDiffs xs, c ≤ d) : truncLse (some c) xs = lse xs := by
  cases xs with
  | nil => rfl
  | cons x xs =>
      rw [truncLse, truncKeep, truncKeepGo_of_le xs x (fun d hd => h d (by rwa [truncDiffs]))]

/-- All running-max differences tested anywhere in the untruncated dynamic
program. -/
noncomputable def offAllDiffs (lik : List ℝ → ℕ → ℕ → ℝ) (prior : ℕ → ℝ)
    (data : List ℝ) : List ℝ :=
  ((List.range data.length).map
    (fun k => truncDiffs
      (offStepTerms lik prior data (offQplain lik prior data k) k))).flatten

theorem offQ_some_eq_plain (lik : List ℝ → ℕ → ℕ → ℝ) (prior : ℕ → ℝ)
    (data : List ℝ) (c : ℝ)
    (hc : c ≤ (offAllDiffs lik prior data).foldr min 0) :
    ∀ k, k ≤ data.length →
      offQ lik prior data (some c) k = offQplain lik prior data k
  | 0, _ => rfl
  | k + 1, hk => by
      have hkk : k ≤ data.length := by omega
      rw [offQ, offQplain, offQ_some_eq_plain lik prior data c hc k hkk]
      congr 1
      apply truncLse_some_of_le
      intro d hd
      refine le_trans hc (foldr_min_le_of_mem 0 ?_)
      rw [offAllDiffs]
      apply List.mem_flatten.mpr
      refine ⟨truncDiffs (offStepTerms lik prior data (offQplain lik prior data k) k), ?_, hd⟩
      exact List.mem_map.mpr ⟨k, List.mem_range.mpr (by omega), rfl⟩

/-- C3: the offline detector's output with pruning disabled (`truncate` the
disabling value `-inf`, modelled as `none`) equals the untruncated dynamic
program exactly, and for every series there is a threshold such that every
sufficiently negative finite `truncate` also reproduces that output exactly —
truncation skips only terms contributing less than `exp(truncate)` relative to
the running max, and below the threshold nothing is skipped at all. -/
theorem truncate_disabled_and_sufficiently_negative_exact
    (lik : List ℝ → ℕ → ℕ → ℝ) (prior : ℕ → ℝ) (data : List ℝ) :
    find_changepoints lik prior data none = find_changepoints_plain lik prior data
    ∧ ∃ c0 : ℝ, ∀ c : ℝ, c ≤ c0 →
        find_changepoints lik prior data (some c)
          = find_changepoints lik prior data none := by
  have hnone : find_changepoints lik prior data none
      = find_changepoints_plain lik prior data := by
    rw [find_changepoints, find_changepoints_plain,
      offQ_none_eq_plain lik prior data data.length, offPcp, offPcpPlain]
    rw [offQ_none_eq_plain lik prior data data.length]
  refine ⟨hnone, ⟨(offAllDiffs lik prior data).foldr min 0, fun c hc => ?_⟩⟩
  have hsome : find_changepoints lik prior data (some c)
      = find_changepoints_plain lik prior data := by
    rw [find_changepoints, find_changepoints_plain,
      offQ_some_eq_plain lik prior data c hc data.length le_rfl, offPcp, offPcpPlain]
    rw [offQ_some_eq_plain lik prior data c hc data.length le_rfl]
  rw [hsome, hnone]

/-- C3 witness: the exactness statement at a concrete three-sample series with
trivial plug-ins. -/
theorem truncate_disabled_and_sufficiently_negative_exact_witness :
    find_changepoints (fun _ _ _ => 0) (fun _ => 1) [1, 2, 3] none
        = find_changepoints_plain (fun _ _ _ => 0) (fun _ => 1) [1, 2, 3]
    ∧ ∃ c0 : ℝ, ∀ c : ℝ, c ≤ c0 →
        find_changepoints (fun _ _ _ => 0) (fun _ => 1) [1, 2, 3] (some c)
          = find_changepoints (fun _ _ _ => 0) (fun _ => 1) [1, 2, 3] none :=
  truncate_disabled_and_sufficiently_negative_exact
    (fun _ _ _ => 0) (fun _ => 1) [1, 2, 3]

/-! ### Observation likelihoods, spec section 4.1

Modelled from the spec: `gaussian/ifm/full_cov` live in the missing
`bayes_offline` module.  The closed forms below follow the spec's description
(shared-scale independent-features marginal, and the Normal-Inverse-Wishart
marginal with log-gamma and log-determinant terms, the Xuan product-partition
forms), over exact reals; a 1-D series is treated as a single column. -/

/-- The contiguous segment `[t, s)` of a series. -/
def segmentOf {d : ℕ} (data : List (Fin d → ℝ)) (t s : ℕ) : List (Fin d → ℝ) :=
  (data.drop t).take (s - t)

noncomputable def meanL (l : List ℝ) : ℝ := l.sum / l.length

/-- The biased variance of all entries of a list, as numpy's flattening `var`
computes it. -/
noncomputable def varL (l : List ℝ) : ℝ :=
  ((l.map (fun y => (y - meanL l) ^ 2)).sum) / l.length

/-- All components of all observations of a segment, flattened. -/
def flattenRows {d : ℕ} (rows : List (Fin d → ℝ)) : List ℝ :=
  rows.flatMap (fun v => List.ofFn v)

noncomputable def lgammaR (x : ℝ) : ℝ := Real.log (Real.Gamma x)

/-- The multivariate log-gamma function
`log Gamma_d(a) = d(d-1)/4 log pi + sum_j log Gamma(a - j/2)`. -/
noncomputable def multigammalnR (a : ℝ) (d : ℕ) : ℝ :=
  (d : ℝ) * ((d : ℝ) - 1) / 4 * Real.log Real.pi
    + ∑ j ∈ Finset.range d, lgammaR (a - (j : ℝ) / 2)

/-- The outer product `v vᵀ` of one observation. -/
noncomputable def outerM {d : ℕ} (v : Fin d → ℝ) : Matrix (Fin d) (Fin d) ℝ :=
  Matrix.of (fun i j => v i * v j)

/-- Modelled from the spec (section 4.1, *ifm*): independent features sharing
one scale; Xuan-style closed form with the flattened-variance prior scale and
per-column accumulated squares. -/
noncomputable def ifm_obs_likelihood {d : ℕ} (data : List (Fin d → ℝ))
    (t s : ℕ) : ℝ :=
  (d : ℝ) * (-(((segmentOf data t s).length : ℝ) / 2) * Real.log Real.pi
      + (d : ℝ) / 2 * Real.log (varL (flattenRows (segmentOf data t s)))
      - lgammaR ((d : ℝ) / 2)
      + lgammaR (((d : ℝ) + ((segmentOf data t s).length : ℝ)) / 2))
    - ∑ col : Fin d,
        ((d : ℝ) + ((segmentOf data t s).length : ℝ)) / 2
          * Real.log (varL (flattenRows (segmentOf data t s))
              + ((segmentOf data t s).map (fun v => v col ^ 2)).sum)

/-- Modelled from the spec (section 4.1, *full covariance*): multivariate
Gaussian with unknown mean and full covariance, Normal-Inverse-Wishart
marginal with multivariate log-gamma and log-determinant terms. -/
noncomputable def fullcov_obs_likelihood {d : ℕ} (data : List (Fin d → ℝ))
    (t s : ℕ) : ℝ :=
  -((d : ℝ) * ((segmentOf data t s).length : ℝ) / 2) * Real.log Real.pi
    + (d : ℝ) / 2 * Real.log
        |(varL (flattenRows (segmentOf data t s))
            • (1 : Matrix (Fin d) (Fin d) ℝ)).det|
    - multigammalnR ((d : ℝ) / 2) d
    + multigammalnR (((d : ℝ) + ((segmentOf data t s).length : ℝ)) / 2) d
    - ((d : ℝ) + ((segmentOf data t s).length : ℝ)) / 2
      * Real.log
          |(varL (flattenRows (segmentOf data t s))
              • (1 : Matrix (Fin d) (Fin d) ℝ)
            + ((segmentOf data t s).map outerM).sum).det|

/-! ### Claim C10: in one dimension, ifm and full covariance coincide -/

theorem varL_nonneg (l : List ℝ) : 0 ≤ varL l := by
  apply div_nonneg
  · apply List.sum_nonneg
    intro z hz
    rcases List.mem_map.mp hz with ⟨w, _, rfl⟩
    positivity
  · positivity

theorem matrix_list_sum_apply {d : ℕ} :
    ∀ (l : List (Matrix (Fin d) (Fin d) ℝ)) (i j : Fin d),
      l.sum i j = (l.map (fun M => M i j)).sum
  | [], i, j => rfl
  | M :: l, i, j => by
      simp only [List.sum_cons, List.map_cons, Matrix.add_apply]
      rw [matrix_list_sum_apply l i j]

/-- C10: for every univariate series and every segment, the full-covariance
observation likelihood returns exactly the same value as the
independent-features-model likelihood — in one dimension the two models
coincide. -/
theorem fullcov_eq_ifm_univariate (data : List (Fin 1 → ℝ)) (t s : ℕ) :
    fullcov_obs_likelihood data t s = ifm_obs_likelihood data t s := by
  unfold fullcov_obs_likelihood ifm_obs_likelihood
  have hmg : ∀ a : ℝ, multigammalnR a 1 = lgammaR a := by
    intro a
    simp [multigammalnR, Finset.sum_range_one]
  have hdet1 : ∀ c : ℝ, (c • (1 : Matrix (Fin 1) (Fin 1) ℝ)).det = c := by
    intro c
    rw [Matrix.det_fin_one]
    simp [Matrix.smul_apply, Matrix.one_apply_eq]
  have hdet2 : ∀ (c : ℝ) (l : List (Fin 1 → ℝ)),
      (c • (1 : Matrix (Fin 1) (Fin 1) ℝ) + (l.map outerM).sum).det
        = c + (l.map (fun v => v 0 ^ 2)).sum := by
    intro c l
    rw [Matrix.det_fin_one, Matrix.add_apply, matrix_list_sum_apply, List.map_map]
    have hco : ((fun M : Matrix (Fin 1) (Fin 1) ℝ => M 0 0) ∘ outerM)
        = fun v : Fin 1 → ℝ => v 0 ^ 2 := by
      funext v
      simp [outerM, pow_two]
    rw [hco]
    simp [Matrix.smul_apply, Matrix.one_apply_eq]
  have hnn2 : 0 ≤ varL (flattenRows (segmentOf data t s))
      + ((segmentOf data t s).map (fun v => v 0 ^ 2)).sum := by
    have h2 : 0 ≤ ((segmentOf data t s).map (fun v => v 0 ^ 2)).sum := by
      apply List.sum_nonneg
      intro z hz
      rcases List.mem_map.mp hz with ⟨w, _, rfl⟩
      positivity
    linarith [varL_nonneg (flattenRows (segmentOf data t s))]
  rw [hdet1, hdet2, hmg, hmg, abs_of_nonneg (varL_nonneg _), abs_of_nonneg hnn2,
    Fin.sum_univ_one]
  simp only [Nat.cast_one]
  ring

/-! ### Accelerated (numba) execution paths, spec sections 8 and 9

Modelled from the spec: the source duplicates each performance-sensitive
function in a JIT-compiled variant (`fullcov_obs_likelihood_numba`,
`StudentTNumba`, `BayesOnlineNumba`, `BayesOfflineNumba`); the spec requires
the two paths to be the same algorithm.  The accelerated variants below are
written loop-style (explicit recursion, inlined multivariate log-gamma
accumulation, hand-written Student-t density through `exp` and `lgamma`),
the way numba kernels are, and are proved extensionally equal to the
reference definitions. -/

noncomputable def lgammaSumGo (a : ℝ) : ℕ → ℝ
  | 0 => 0
  | j + 1 => lgammaSumGo a j + lgammaR (a - (j : ℝ) / 2)

noncomputable def multigammalnNumba (a : ℝ) (d : ℕ) : ℝ :=
  (d : ℝ) * ((d : ℝ) - 1) / 4 * Real.log Real.pi + lgammaSumGo a d

theorem lgammaSumGo_eq (a : ℝ) :
    ∀ d : ℕ, lgammaSumGo a d = ∑ j ∈ Finset.range d, lgammaR (a - (j : ℝ) / 2)
  | 0 => by simp [lgammaSumGo]
  | d + 1 => by
      rw [lgammaSumGo, Finset.sum_range_succ, lgammaSumGo_eq a d]

theorem multigammalnNumba_eq (a : ℝ) (d : ℕ) :
    multigammalnNumba a d = multigammalnR a d := by
  rw [multigammalnNumba, multigammalnR, lgammaSumGo_eq]

/-- The accelerated full-covariance likelihood: the same closed form with the
multivariate log-gamma accumulated by an explicit loop. -/
noncomputable def fullcov_obs_likelihood_numba {d : ℕ} (data : List (Fin d → ℝ))
    (t s : ℕ) : ℝ :=
  -((d : ℝ) * ((segmentOf data t s).length : ℝ) / 2) * Real.log Real.pi
    + (d : ℝ) / 2 * Real.log
        |(varL (flattenRows (segmentOf data t s))
            • (1 : Matrix (Fin d) (Fin d) ℝ)).det|
    - multigammalnNumba ((d : ℝ) / 2) d
    + multigammalnNumba (((d : ℝ) + ((segmentOf data t s).length : ℝ)) / 2) d
    - ((d : ℝ) + ((segmentOf data t s).length : ℝ)) / 2
      * Real.log
          |(varL (flattenRows (segmentOf data t s))
              • (1 : Matrix (Fin d) (Fin d) ℝ)
            + ((segmentOf data t s).map outerM).sum).det|

/-- The reference Student-t density (scipy's parametrization by degrees of
freedom, location and scale). -/
noncomputable def t_pdf_ref (x df loc scale : ℝ) : ℝ :=
  Real.Gamma ((df + 1) / 2) / Real.Gamma (df / 2)
    / (Real.sqrt (df * Real.pi) * scale)
    * (1 + ((x - loc) / scale) ^ 2 / df) ^ (-((df + 1) / 2))

/-- The accelerated hand-written Student-t density, computing the gamma ratio
through `exp` of a log-gamma difference, as the numba kernel does. -/
noncomputable def t_pdf (x df loc scale : ℝ) : ℝ :=
  Real.exp (lgammaR ((df + 1) / 2) - lgammaR (df / 2))
    / (Real.sqrt (df * Real.pi) * scale)
    * (1 + ((x - loc) / scale) ^ 2 / df) ^ (-((df + 1) / 2))

/-- The reference per-run-length Student-t predictive densities: degrees of
freedom `2*alpha`, location `mu`, scale `sqrt(beta*(kappa+1)/(alpha*kappa))`
for each active entry. -/
noncomputable def studentT_pdf (x : ℝ) (th : Theta ℝ) : List ℝ :=
  (thetaEntries th).map (fun e =>
    t_pdf_ref x (2 * e.1) e.2.2.2 (Real.sqrt (e.2.1 * (e.2.2.1 + 1) / (e.1 * e.2.2.1))))

/-- The accelerated per-run-length Student-t predictive densities. -/
noncomputable def studentT_pdf_numba (x : ℝ) (th : Theta ℝ) : List ℝ :=
  (thetaEntries th).map (fun e =>
    t_pdf x (2 * e.1) e.2.2.2 (Real.sqrt (e.2.1 * (e.2.2.1 + 1) / (e.1 * e.2.2.1))))

def addHalfAll {α : Type} [LinearOrderedField α] : List α → List α
  | [] => []
  | a :: rest => (a + 1 / 2) :: addHalfAll rest

def addOneAll {α : Type} [LinearOrderedField α] : List α → List α
  | [] => []
  | k :: rest => (k + 1) :: addOneAll rest

def muAll {α : Type} [LinearOrderedField α] (x : α) : List α → List α → List α
  | k :: ks, m :: ms => ((k * m + x) / (k + 1)) :: muAll x ks ms
  | _, _ => []

def betaAll {α : Type} [LinearOrderedField α] (x : α) :
    List α → List α → List α → List α
  | b :: bs, k :: ks, m :: ms =>
      (b + k * (x - m) ^ 2 / (2 * (k + 1))) :: betaAll x bs ks ms
  | _, _, _ => []

/-- The accelerated conjugate update, element loops written as explicit
recursions. -/
def update_theta_numba {α : Type} [LinearOrderedField α] (p : TParams α) (x : α)
    (th : Theta α) : Theta α :=
  ⟨p.alpha0 :: addHalfAll th.alpha,
   p.beta0 :: betaAll x th.beta th.kappa th.mu,
   p.kappa0 :: addOneAll th.kappa,
   p.mu0 :: muAll x th.kappa th.mu⟩

def headSingleton {α : Type} : List α → List α
  | [] => []
  | a :: _ => [a]

/-- The accelerated reset, keeping the first entry of each array by pattern
matching. -/
def reset_theta_numba {α : Type} (th : Theta α) : Theta α :=
  ⟨headSingleton th.alpha, headSingleton th.beta,
   headSingleton th.kappa, headSingleton th.mu⟩

theorem addHalfAll_eq {α : Type} [LinearOrderedField α] :
    ∀ l : List α, addHalfAll l = l.map (fun a => a + 1 / 2)
  | [] => rfl
  | a :: l => by rw [addHalfAll, List.map_cons, addHalfAll_eq l]

theorem addOneAll_eq {α : Type} [LinearOrderedField α] :
    ∀ l : List α, addOneAll l = l.map (fun k => k + 1)
  | [] => rfl
  | a :: l => by rw [addOneAll, List.map_cons, addOneAll_eq l]

theorem muAll_eq {α : Type} [LinearOrderedField α] (x : α) :
    ∀ ks ms : List α,
      muAll x ks ms = List.zipWith (fun k m => (k * m + x) / (k + 1)) ks ms
  | [], [] => rfl
  | [], _ :: _ => rfl
  | _ :: _, [] => rfl
  | k :: ks, m :: ms => by
      rw [muAll, List.zipWith_cons_cons, muAll_eq x ks ms]

theorem betaAll_eq {α : Type} [LinearOrderedField α] (x : α) :
    ∀ bs ks ms : List α,
      betaAll x bs ks ms = List.zipWith
        (fun b km => b + km.1 * (x - km.2) ^ 2 / (2 * (km.1 + 1)))
        bs (ks.zip ms)
  | [], _, _ => rfl
  | _ :: _, [], _ => rfl
  | _ :: _, _ :: _, [] => rfl
  | b :: bs, k :: ks, m :: ms => by
      rw [betaAll, List.zip_cons_cons, List.zipWith_cons_cons, betaAll_eq x bs ks ms]

theorem headSingleton_eq {α : Type} :
    ∀ l : List α, headSingleton l = l.take 1
  | [] => rfl
  | a :: l => by rw [headSingleton, List.take_succ_cons, List.take_zero]

theorem map_congr_mem {α β : Type} {f g : α → β} :
    ∀ l : List α, (∀ a ∈ l, f a = g a) → l.map f = l.map g
  | [], _ => rfl
  | a :: l, h => by
      rw [List.map_cons, List.map_cons, h a (List.mem_cons_self _ _),
        map_congr_mem l (fun b hb => h b (List.mem_cons_of_mem _ hb))]

theorem stepVec_congr {α : Type} [LinearOrderedField α]
    (pdf1 pdf2 : α → α × α × α × α → α) (hazF : ℕ → α) (x : α) (th : Theta α)
    (R : List α) (hpdf : ∀ y e, pdf1 y e = pdf2 y e) :
    stepVec pdf1 hazF x th R = stepVec pdf2 hazF x th R := by
  unfold stepVec
  rw [map_congr_mem (thetaEntries th) (fun e _ => hpdf x e)]

theorem online_update_congr {α : Type} [LinearOrderedField α]
    (pdf1 pdf2 : α → α × α × α × α → α) (hazF : ℕ → α) (p : TParams α) (x : α)
    (st : OnlineFinder α) (hpdf : ∀ y e, pdf1 y e = pdf2 y e) :
    online_update pdf1 hazF p x st = online_update pdf2 hazF p x st := by
  unfold online_update
  rw [stepVec_congr pdf1 pdf2 hazF x st.theta _ hpdf]

theorem online_find_congr {α : Type} [LinearOrderedField α]
    (pdf1 pdf2 : α → α × α × α × α → α) (hazF : ℕ → α) (p : TParams α)
    (hpdf : ∀ y e, pdf1 y e = pdf2 y e) :
    ∀ (data : List α) (st : OnlineFinder α),
      online_find pdf1 hazF p data st = online_find pdf2 hazF p data st
  | [], st => rfl
  | x :: xs, st => by
      simp only [online_find, List.foldl_cons]
      rw [online_update_congr pdf1 pdf2 hazF p x st hpdf]
      exact online_find_congr pdf1 pdf2 hazF p hpdf xs _

theorem offStepTerms_congr (lik1 lik2 : List ℝ → ℕ → ℕ → ℝ) (prior : ℕ → ℝ)
    (data : List ℝ) (prev : List ℝ) (k : ℕ)
    (h : ∀ t s, lik1 data t s = lik2 data t s) :
    offStepTerms lik1 prior data prev k = offStepTerms lik2 prior data prev k := by
  unfold offStepTerms
  apply map_congr_mem
  intro j _
  rw [offP, offP, h]

theorem offQ_congr (lik1 lik2 : List ℝ → ℕ → ℕ → ℝ) (prior : ℕ → ℝ)
    (data : List ℝ) (tr : Option ℝ)
    (h : ∀ t s, lik1 data t s = lik2 data t s) :
    ∀ k, offQ lik1 prior data tr k = offQ lik2 prior data tr k
  | 0 => rfl
  | k + 1 => by
      rw [offQ, offQ, offQ_congr lik1 lik2 prior data tr h k,
        offStepTerms_congr lik1 lik2 prior data _ k h]

theorem find_changepoints_congr (lik1 lik2 : List ℝ → ℕ → ℕ → ℝ) (prior : ℕ → ℝ)
    (data : List ℝ) (tr : Option ℝ)
    (h : ∀ t s, lik1 data t s = lik2 data t s) :
    find_changepoints lik1 prior data tr = find_changepoints lik2 prior data tr := by
  have hq := offQ_congr lik1 lik2 prior data tr h data.length
  have hpcp : offPcp lik1 prior data tr = offPcp lik2 prior data tr := by
    unfold offPcp
    rw [hq]
    apply map_congr_mem
    intro i _
    rw [offP, offP, h]
  unfold find_changepoints
  rw [hq, hpcp]

/-! ### Claim C2: reference and accelerated paths agree exactly -/

/-- C2: every operation existing in both a reference and an accelerated
execution path produces identical results on the same input:
`fullcov_obs_likelihood_numba` equals `fullcov_obs_likelihood` on every
segment; the hand-written `t_pdf` equals the reference Student-t density
whenever the degrees of freedom are positive, so the accelerated per-run-length
predictive densities agree whenever all `alpha` entries are positive; the
accelerated conjugate update and reset equal the reference ones on every
state; and detectors driven by extensionally equal model functions — the
online run over any data and the offline `find_changepoints` under any
truncation — produce identical outputs. -/
theorem accelerated_paths_agree (α : Type) [LinearOrderedField α] :
    (∀ (d : ℕ) (data : List (Fin d → ℝ)) (t s : ℕ),
        fullcov_obs_likelihood_numba data t s = fullcov_obs_likelihood data t s)
    ∧ (∀ x df loc scale : ℝ, 0 < df →
        t_pdf x df loc scale = t_pdf_ref x df loc scale)
    ∧ (∀ (x : ℝ) (th : Theta ℝ), (∀ e ∈ thetaEntries th, 0 < e.1) →
        studentT_pdf_numba x th = studentT_pdf x th)
    ∧ (∀ (p : TParams α) (x : α) (th : Theta α),
        update_theta_numba p x th = update_theta p x th)
    ∧ (∀ th : Theta α, reset_theta_numba th = reset_theta th)
    ∧ (∀ (pdf1 pdf2 : α → α × α × α × α → α) (hazF : ℕ → α) (p : TParams α)
        (data : List α) (st : OnlineFinder α), (∀ y e, pdf1 y e = pdf2 y e) →
        online_find pdf1 hazF p data st = online_find pdf2 hazF p data st)
    ∧ (∀ (lik1 lik2 : List ℝ → ℕ → ℕ → ℝ) (prior : ℕ → ℝ) (data : List ℝ)
        (tr : Option ℝ), (∀ t s, lik1 data t s = lik2 data t s) →
        find_changepoints lik1 prior data tr
          = find_changepoints lik2 prior data tr) := by
  have htpdf : ∀ x df loc scale : ℝ, 0 < df →
      t_pdf x df loc scale = t_pdf_ref x df loc scale := by
    intro x df loc scale hdf
    unfold t_pdf t_pdf_ref lgammaR
    rw [Real.exp_sub, Real.exp_log (Real.Gamma_pos_of_pos (by positivity)),
      Real.exp_log (Real.Gamma_pos_of_pos (by positivity))]
  refine ⟨?_, htpdf, ?_, ?_, ?_, ?_, ?_⟩
  · intro d data t s
    unfold fullcov_obs_likelihood_numba fullcov_obs_likelihood
    rw [multigammalnNumba_eq, multigammalnNumba_eq]
  · intro x th hth
    unfold studentT_pdf_numba studentT_pdf
    apply map_congr_mem
    intro e he
    exact htpdf x (2 * e.1) e.2.2.2 _ (by linarith [hth e he])
  · intro p x th
    unfold update_theta_numba update_theta
    rw [addHalfAll_eq, addOneAll_eq, muAll_eq, betaAll_eq]
  · intro th
    unfold reset_theta_numba reset_theta
    rw [headSingleton_eq, headSingleton_eq, headSingleton_eq, headSingleton_eq]
  · intro pdf1 pdf2 hazF p data st hpdf
    exact online_find_congr pdf1 pdf2 hazF p hpdf data st
  · intro lik1 lik2 prior data tr h
    exact find_changepoints_congr lik1 lik2 prior data tr h

/-- C2 witness: the Student-t density agreement at `x = 10`, `df = 2`,
`loc = 3`, `scale = 2` (the test's `t_pdf` scenario), and the online detectors
driven by two identical unit densities agreeing on a one-sample run. -/
theorem accelerated_paths_agree_witness :
    t_pdf 10 2 3 2 = t_pdf_ref 10 2 3 2
    ∧ online_find (fun (_ : ℚ) (_ : ℚ × ℚ × ℚ × ℚ) => 1) (fun _ => 1/2)
        (⟨1/10, 1/100, 1, 0⟩ : TParams ℚ) [5]
        (onlineInit ⟨1/10, 1/100, 1, 0⟩)
      = online_find (fun (_ : ℚ) (_ : ℚ × ℚ × ℚ × ℚ) => 1) (fun _ => 1/2)
        (⟨1/10, 1/100, 1, 0⟩ : TParams ℚ) [5]
        (onlineInit ⟨1/10, 1/100, 1, 0⟩) :=
  ⟨(accelerated_paths_agree ℚ).2.1 10 2 3 2 (by norm_num),
   (accelerated_paths_agree ℚ).2.2.2.2.2.1 (fun _ _ => 1) (fun _ _ => 1)
     (fun _ => 1/2) (⟨1/10, 1/100, 1, 0⟩ : TParams ℚ) [5]
     (onlineInit ⟨1/10, 1/100, 1, 0⟩) (fun _ _ => rfl)⟩
